import Mathlib

/-!
Verification of the `wikt` block store, section splitter and XML page
recognizer.  Definitions are shallow embeddings of the Rust source
(`src/blockstore.rs`, `src/main.rs`, `src/xmldump.rs`); bytes are `Nat`
values below 256, machine integers are `Nat` with explicit bounds.
-/

namespace Wikt

/-! ### Little-endian byte primitives

`leVal` reads a little-endian byte list as a number; `u32le`/`u64le`
produce the fixed-width little-endian encodings written by the `deku`
derive with `endian = "little"`. -/

def leVal : List Nat → Nat
  | [] => 0
  | b :: bs => b + 256 * leVal bs

def u32le (n : Nat) : List Nat :=
  [n % 256, n / 256 % 256, n / 256 ^ 2 % 256, n / 256 ^ 3 % 256]

def u64le (n : Nat) : List Nat :=
  [n % 256, n / 256 % 256, n / 256 ^ 2 % 256, n / 256 ^ 3 % 256,
   n / 256 ^ 4 % 256, n / 256 ^ 5 % 256, n / 256 ^ 6 % 256, n / 256 ^ 7 % 256]

/-- Reads a `u32` from the first four bytes (`u32::from_le_bytes` on a
4-byte slice). -/
def readU32 (bs : List Nat) : Nat := leVal (bs.take 4)

/-- Reads a `u64` from the first eight bytes. -/
def readU64 (bs : List Nat) : Nat := leVal (bs.take 8)

/-! ### Entry codec

`Entry` (src/blockstore.rs lines 201-234): little-endian `u32 title_len`,
`u32 body_len`, then the raw title and body bytes.  `encodeEntry` is
`Entry::to_bytes`, `decodeEntry` is `Entry::from_bytes` (the `deku`
reader with `bytes_read = title_len` / `bytes_read = body_len`); it
errors when fewer bytes remain than a declared length, and tolerates
trailing bytes. -/

def encodeEntry (title body : List Nat) : List Nat :=
  u32le title.length ++ u32le body.length ++ title ++ body

def encodedLen (title body : List Nat) : Nat := 8 + title.length + body.length

def decodeEntry (bs : List Nat) : Option (List Nat × List Nat) :=
  if bs.length < 8 then none
  else if bs.length < 8 + readU32 bs + readU32 (bs.drop 4) then none
  else some ((bs.drop 8).take (readU32 bs),
             (bs.drop (8 + readU32 bs)).take (readU32 (bs.drop 4)))

/-! ### Block

`Block` (src/blockstore.rs lines 129-199): `id` is skipped by the codec
(assigned from the file name on read), `n` is a little-endian `u32`
followed by four reserved padding bytes, `starts` is `n` little-endian
`u64` offsets, `data` is the rest of the bytes. -/

structure Block where
  id : Nat := 0
  n : Nat := 0
  starts : List Nat := []
  data : List Nat := []
deriving Repr, DecidableEq

/-- `Block::add`: encode the entry, push the current data length onto
`starts`, extend `data`, increment `n`. -/
def Block.add (b : Block) (title body : List Nat) : Block :=
  { b with
    n := b.n + 1
    starts := b.starts ++ [b.data.length]
    data := b.data ++ encodeEntry title body }

/-- A block built from an entry sequence by successive `Block::add`
starting from `Block::default()`. -/
def buildBlock (es : List (List Nat × List Nat)) : Block :=
  es.foldl (fun b e => b.add e.1 e.2) {}

/-- `Block::finish` = `Block::to_bytes`: `n` as `u32`, four zero padding
bytes, each start as `u64`, then the data verbatim. -/
def Block.finish (b : Block) : List Nat :=
  u32le b.n ++ [0, 0, 0, 0] ++ (b.starts.map u64le).flatten ++ b.data

/-- Reads `k` little-endian `u64` values (the `deku` `count = "n"`
reader); errors when fewer than `8 * k` bytes remain. -/
def readU64s : Nat → List Nat → Option (List Nat)
  | 0, _ => some []
  | k + 1, bs =>
    if bs.length < 8 then none
    else
      match readU64s k (bs.drop 8) with
      | none => none
      | some rest => some (readU64 bs :: rest)

/-- `Block::from_bytes`: header `u32 n` plus 4 padding bytes, `n` `u64`
starts, rest is data (`bits_read = deku::rest.len()`). -/
def parseBlock (bs : List Nat) : Option Block :=
  if bs.length < 8 then none
  else
    match readU64s (readU32 bs) (bs.drop 8) with
    | none => none
    | some starts =>
      some { id := 0, n := readU32 bs, starts := starts,
             data := (bs.drop 8).drop (8 * readU32 bs) }

inductive LookupErr where
  | noSuchEntry
  | corruptBlock
  | panic
deriving Repr, DecidableEq

deriving instance DecidableEq for Except

/-- `Block::entry`: look up `starts[n]` (error `noSuchEntry` when out of
range), read `title_len` and `body_len` from the eight bytes at that
offset (Rust slice indexing panics when out of bounds), slice the entry
bytes, and either build the entry directly (`body_len == 0` branch) or
run `Entry::from_bytes` (whose failure surfaces as the corrupt-block
error). -/
def Block.entry (b : Block) (i : Nat) : Except LookupErr (List Nat × List Nat) :=
  match b.starts.get? i with
  | none => .error .noSuchEntry
  | some start =>
    if b.data.length < start + 8 then .error .panic
    else if b.data.length <
        start + 8 + readU32 (b.data.drop start) + readU32 (b.data.drop (start + 4)) then
      .error .panic
    else if readU32 (b.data.drop (start + 4)) = 0 then
      .ok (((b.data.drop start).take
        (8 + readU32 (b.data.drop start) + readU32 (b.data.drop (start + 4)))).drop 8, [])
    else
      match decodeEntry ((b.data.drop start).take
        (8 + readU32 (b.data.drop start) + readU32 (b.data.drop (start + 4)))) with
      | none => .error .corruptBlock
      | some e => .ok e

/-! #### Characterizing `buildBlock` -/

def encE (e : List Nat × List Nat) : List Nat := encodeEntry e.1 e.2

/-- The start offsets produced by successive appends beginning at `off`. -/
def offsets (off : Nat) : List (List Nat × List Nat) → List Nat
  | [] => []
  | e :: es => off :: offsets (off + (encE e).length) es

/-- The byte offset at which entry `i` starts inside the data arena. -/
def startOf (es : List (List Nat × List Nat)) (i : Nat) : Nat :=
  (((es.take i).map encE).flatten).length

/-! ### Store commit and dictionary training

`Store::commit` (src/blockstore.rs lines 18-49).  The zstd library
(`from_continuous`, the encoder) is external, so the model is
parameterized over a training function and a compression function;
what the source fixes is the sample-size computation, the 150,000-byte
target, and the train-once-then-reuse control flow. -/

/-- The sample sizes `Store::commit` passes to `from_continuous`:
`once(&0).chain(starts.iter()).zip(starts.iter())` mapped over
`end - start`. -/
def sampleSizes (b : Block) : List Nat :=
  ((0 :: b.starts).zip b.starts).map (fun p => p.2 - p.1)

/-- The sample sizes as the spec's words describe them (this definition
follows the SPEC, not the source, for comparison): the consecutive
differences `starts[1]-starts[0], …, len(data)-starts[n-1]`. -/
def specSampleSizes (b : Block) : List Nat :=
  (b.starts.zip (b.starts.drop 1 ++ [b.data.length])).map (fun p => p.2 - p.1)

/-- The dictionary size target passed to `from_continuous`. -/
def dictTargetSize : Nat := 150000

structure StoreState where
  dictEn : Option (List Nat)
  dictFile : Option (List Nat)
  blockFiles : List (Nat × List Nat)
deriving Repr, DecidableEq

/-- `Store::new` on a fresh directory: no dictionary in memory, no
`zst.dictionary` file, no block files. -/
def freshStore : StoreState :=
  { dictEn := none, dictFile := none, blockFiles := [] }

/-- `Store::commit`: reuse the in-memory encoder dictionary when
present; otherwise train one from this block's data and sample sizes,
write it to `zst.dictionary`, and keep it in memory.  Either way the
finalized block is compressed with the dictionary into `<n>.zst`. -/
def commit (train : List Nat → List Nat → Nat → List Nat)
    (compress : List Nat → List Nat → List Nat)
    (s : StoreState) (b : Block) (n : Nat) : StoreState :=
  match s.dictEn with
  | some d =>
    { s with blockFiles := s.blockFiles ++ [(n, compress d b.finish)] }
  | none =>
    { dictEn := some (train b.data (sampleSizes b) dictTargetSize),
      dictFile := some (train b.data (sampleSizes b) dictTargetSize),
      blockFiles := s.blockFiles
        ++ [(n, compress (train b.data (sampleSizes b) dictTargetSize) b.finish)] }

/-- Pairwise differences against a running previous value. -/
def diffList (prev : Nat) : List Nat → List Nat
  | [] => []
  | y :: l => (y - prev) :: diffList y l

/-! ### Corrupting the last data byte (C8) -/

/-- Replaces the last element of a list. -/
def setLast (l : List Nat) (c : Nat) : List Nat := l.dropLast ++ [c]

/-! ### Ref

`Ref` (src/blockstore.rs lines 236-273): two little-endian `u32`
fields, `block_id` then `entry_id`; `as_u64`/`from_u64` reinterpret the
8-byte encoding; `Display`/`FromStr` use the `"<block_id>/<entry_id>"`
decimal form. -/

structure Ref where
  block_id : Nat
  entry_id : Nat
deriving Repr, DecidableEq

/-- `Ref::to_bytes` (deku, little-endian): `block_id` then `entry_id`. -/
def refToBytes (r : Ref) : List Nat := u32le r.block_id ++ u32le r.entry_id

/-- `Ref::as_u64`: `u64::from_le_bytes` of the 8 encoded bytes. -/
def refAsU64 (r : Ref) : Nat := leVal (refToBytes r)

/-- `Ref::from_u64`: `Ref::from_bytes(r.to_le_bytes())`. -/
def refFromU64 (n : Nat) : Ref :=
  { block_id := readU32 (u64le n), entry_id := readU32 ((u64le n).drop 4) }

/-! #### Textual form -/

/-- Decimal digit characters of `n`, most significant first, as
`fmt::Display` prints an unsigned integer (`"0"` for zero). -/
def decChars (n : Nat) : List Char :=
  if n = 0 then ['0'] else ((Nat.digits 10 n).map Nat.digitChar).reverse

/-- `Display for Ref`: `"<block_id>/<entry_id>"`. -/
def refFormat (r : Ref) : List Char :=
  decChars r.block_id ++ '/' :: decChars r.entry_id

/-- `str::split_once('/')`: the text before and after the first `/`. -/
def splitOnceSlash : List Char → Option (List Char × List Char)
  | [] => none
  | c :: cs =>
    if c = '/' then some ([], cs)
    else
      match splitOnceSlash cs with
      | none => none
      | some (l, r) => some (c :: l, r)

/-- Value of a decimal digit character. -/
def charVal (c : Char) : Option Nat :=
  if '0' ≤ c ∧ c ≤ '9' then some (c.toNat - '0'.toNat) else none

/-- Left-to-right accumulation of decimal digits; `none` on the first
non-digit. -/
def digitsValAux (acc : Nat) : List Char → Option Nat
  | [] => some acc
  | c :: cs =>
    match charVal c with
    | none => none
    | some d => digitsValAux (acc * 10 + d) cs

/-- `u32::from_str` accepts an optional leading `+`. -/
def stripPlus : List Char → List Char
  | [] => []
  | c :: rest => if c = '+' then rest else c :: rest

/-- `str::parse::<u32>`: at least one digit, all digits, value below
`2^32`. -/
def parseU32 (cs : List Char) : Option Nat :=
  if stripPlus cs = [] then none
  else
    match digitsValAux 0 (stripPlus cs) with
    | none => none
    | some v => if v < 2 ^ 32 then some v else none

/-- `Ref::from_str`: split on `/`, parse both sides. -/
def refParse (cs : List Char) : Option Ref :=
  match splitOnceSlash cs with
  | none => none
  | some (l, r) =>
    match parseU32 l, parseU32 r with
    | some b, some e => some ⟨b, e⟩
    | _, _ => none

/-! ### XML page recognizer

`Page::parse` (src/xmldump.rs lines 12-61): a state machine over SAX
events.  Only the element names and text payloads the code inspects are
modelled; every other event kind is `other`.  Rust match arms are
ordered and guarded, so guard failures fall through to the
`(_, EndElement "page")` arm and then to the identity catch-all; the
Lean `match` below mirrors that ordering. -/

inductive XmlEvent where
  | startElement (name : String)
  | endElement (name : String)
  | characters (s : String)
  | cdata (s : String)
  | other
deriving Repr, DecidableEq

inductive Page where
  | none
  | Open
  | title (ts : List String)
  | titled (t : String)
  | text (title : String) (xs : List String)
  | texted (title : String) (body : String)
deriving Repr, DecidableEq

def pageParse : Page → XmlEvent → Page
  | .none, .startElement n => if n = "page" then .Open else .none
  | .Open, .startElement n => if n = "title" then .title [] else .Open
  | .title ts, .characters s => .title (ts ++ [s])
  | .title ts, .cdata s => .title (ts ++ [s])
  | .title ts, .endElement n =>
      if n = "title" then .titled (String.intercalate " " ts)
      else if n = "page" then .none else .title ts
  | .titled t, .startElement n => if n = "text" then .text t [] else .titled t
  | .text t xs, .characters s => .text t (xs ++ [s])
  | .text t xs, .cdata s => .text t (xs ++ [s])
  | .text t xs, .endElement n =>
      if n = "text" then .texted t (String.intercalate " " xs)
      else if n = "page" then .none else .text t xs
  | .texted _ _, _ => .none
  | p, .endElement n => if n = "page" then .none else p
  | p, _ => p

/-- The transitions named in the spec's table (including the
`any | end </page> | None` row). -/
def namedTransition : Page → XmlEvent → Prop
  | .none, .startElement n => n = "page"
  | .Open, .startElement n => n = "title"
  | .title _, .characters _ => True
  | .title _, .cdata _ => True
  | .title _, .endElement n => n = "title" ∨ n = "page"
  | .titled _, .startElement n => n = "text"
  | .text _ _, .characters _ => True
  | .text _ _, .cdata _ => True
  | .text _ _, .endElement n => n = "text" ∨ n = "page"
  | .texted _ _, _ => True
  | _, .endElement n => n = "page"
  | _, _ => False

/-! ### Section splitter

`split_by_section` (src/main.rs lines 397-430) with
`LANG_RX = (?m)^\s*==([\w\s]+)==\s*$` and the triple-`=` `GRAM_RX`.
The regex engine is modelled for exactly this pattern shape on the
ASCII inputs the claims use: a heading match starts at a line start,
consumes the maximal `\s*` run (the following literal `=` is not
whitespace, so no shorter run can match), the capture is the maximal
`[\w\s]+` run (`=` is not in the class, so its end is forced), and the
trailing `\s*$` picks the furthest reachable line end, greedily.
Positions are char positions; on ASCII they coincide with the byte
offsets the Rust code mixes in.  `usize` subtractions are checked
(`checkedSub`), so a Rust debug-build panic surfaces as `none`. -/

def isWs (c : Char) : Bool :=
  c = ' ' || c = '\t' || c = '\n' || c = '\r' || c = '\x0b' || c = '\x0c'

def isWord (c : Char) : Bool := c.isAlphanum || c = '_'

def isCap (c : Char) : Bool := isWord c || isWs c

/-- `(?m)$`: end of text or just before a newline. -/
def lineEnd (t : List Char) (u : Nat) : Bool :=
  u == t.length || t.get? u == some '\n'

/-- `(?m)^`: start of text or just after a newline. -/
def lineStart (t : List Char) (p : Nat) : Bool :=
  p == 0 || t.get? (p - 1) == some '\n'

/-- Greedy `\s*$`: the furthest position in `base..base+k` that is a
line end, preferring longer whitespace runs. -/
def greedyEnd (t : List Char) (base : Nat) : Nat → Option Nat
  | 0 => if lineEnd t base then some base else none
  | k + 1 =>
    if lineEnd t (base + (k + 1)) then some (base + (k + 1))
    else greedyEnd t base k

/-- One attempt of the heading regex at line-start `p`; `m` is the
heading marker length (2 for `LANG_RX`, 3 for `GRAM_RX`).  Returns the
lowercased capture and the match end. -/
def tryMatchAt (m : Nat) (t : List Char) (p : Nat) : Option (List Char × Nat) :=
  if (List.replicate m '=').isPrefixOf
      (t.drop (p + ((t.drop p).takeWhile isWs).length)) then
    if ((t.drop (p + ((t.drop p).takeWhile isWs).length + m)).takeWhile isCap).length
        = 0 then none
    else
      if (List.replicate m '=').isPrefixOf
          (t.drop (p + ((t.drop p).takeWhile isWs).length + m
            + ((t.drop (p + ((t.drop p).takeWhile isWs).length + m)).takeWhile
                isCap).length)) then
        match greedyEnd t
            (p + ((t.drop p).takeWhile isWs).length + m
              + ((t.drop (p + ((t.drop p).takeWhile isWs).length + m)).takeWhile
                  isCap).length + m)
            ((t.drop (p + ((t.drop p).takeWhile isWs).length + m
              + ((t.drop (p + ((t.drop p).takeWhile isWs).length + m)).takeWhile
                  isCap).length + m)).takeWhile isWs).length with
        | none => none
        | some u =>
          some (((t.drop (p + ((t.drop p).takeWhile isWs).length + m)).takeWhile
            isCap).map Char.toLower, u)
      else none
  else none

/-- `captures_iter`: successive leftmost matches, the search resuming
at each match end.  The fuel argument bounds the scan (matches are at
least one char long, so `t.length + 1` fuel suffices). -/
def findMatches (m : Nat) (t : List Char) : Nat → Nat → List (List Char × Nat × Nat)
  | 0, _ => []
  | fuel + 1, p =>
    if p > t.length then []
    else if lineStart t p then
      match tryMatchAt m t p with
      | some (cap, e) => (cap, p, e) :: findMatches m t fuel e
      | none => findMatches m t fuel (p + 1)
    else findMatches m t fuel (p + 1)

/-- Checked `usize` subtraction: Rust debug builds panic on underflow. -/
def checkedSub (a b : Nat) : Option Nat := if b ≤ a then some (a - b) else none

/-- `str::trim` on ASCII text. -/
def trimChars (l : List Char) : List Char :=
  ((l.dropWhile isWs).reverse.dropWhile isWs).reverse

/-- The per-match section extraction: for match `i` the section runs
from its `match_end` to the next match's start, or to `len(text) - 1`
for the last; the text slice is `chars().skip(start - 1).take(end -
start)`, trimmed. -/
def sectionsAux (t : List Char) :
    List (List Char × Nat × Nat) → Option (List (List Char × List Char))
  | [] => some []
  | (name, _, st) :: rest => do
    let endPos ←
      match rest with
      | (_, st2, _) :: _ => pure st2
      | [] => checkedSub t.length 1
    let len ← checkedSub endPos st
    let skipn ← checkedSub st 1
    let restOut ← sectionsAux t rest
    pure ((name, trimChars ((t.drop skipn).take len)) :: restOut)

/-- `split_by_section`: collect heading matches, then extract the
labelled sections.  `none` models a panic on an underflowing `usize`
subtraction.  The iteration-order association list stands for the
returned `HashMap` (later duplicates would overwrite earlier ones). -/
def splitBySection (m : Nat) (t : List Char) : Option (List (List Char × List Char)) :=
  sectionsAux t (findMatches m t (t.length + 1) 0)

/-- `str::contains` on char lists. -/
def isSubChars (needle : List Char) : List Char → Bool
  | [] => needle.isEmpty
  | c :: hs => needle.isPrefixOf (c :: hs) || isSubChars needle hs

/-- The S5 input `"==English==\nfoo\n===Noun===\nbar\n==French==\nbaz\n"`. -/
def s5input : List Char :=
  "==English==\nfoo\n===Noun===\nbar\n==French==\nbaz\n".toList

/-! ### Theorems -/

@[simp] theorem u32le_length (n : Nat) : (u32le n).length = 4 := rfl

@[simp] theorem u64le_length (n : Nat) : (u64le n).length = 8 := rfl

theorem leVal_u32le (n : Nat) (h : n < 2 ^ 32) : leVal (u32le n) = n := by
  simp only [u32le, leVal]
  omega

theorem leVal_u64le (n : Nat) (h : n < 2 ^ 64) : leVal (u64le n) = n := by
  simp only [u64le, leVal]
  omega

theorem readU32_u32le_append (n : Nat) (h : n < 2 ^ 32) (rest : List Nat) :
    readU32 (u32le n ++ rest) = n := by
  have : (u32le n ++ rest).take 4 = u32le n := by
    simp [List.take_append_of_le_length, u32le]
  rw [readU32, this, leVal_u32le n h]

theorem readU64_u64le_append (n : Nat) (h : n < 2 ^ 64) (rest : List Nat) :
    readU64 (u64le n ++ rest) = n := by
  have : (u64le n ++ rest).take 8 = u64le n := by
    simp [List.take_append_of_le_length, u64le]
  rw [readU64, this, leVal_u64le n h]

theorem encodeEntry_length (title body : List Nat) :
    (encodeEntry title body).length = encodedLen title body := by
  simp [encodeEntry, encodedLen]
  omega

theorem encodeEntry_regroup (title body rest : List Nat) :
    encodeEntry title body ++ rest
      = u32le title.length ++ (u32le body.length ++ (title ++ (body ++ rest))) := by
  simp [encodeEntry]

theorem encodeEntry_drop4 (title body rest : List Nat) :
    (encodeEntry title body ++ rest).drop 4
      = u32le body.length ++ (title ++ (body ++ rest)) := by
  rw [encodeEntry_regroup, List.drop_left' (u32le_length title.length)]

theorem encodeEntry_drop8 (title body rest : List Nat) :
    (encodeEntry title body ++ rest).drop 8 = title ++ (body ++ rest) := by
  have h := congrArg (List.drop 4) (encodeEntry_drop4 title body rest)
  rw [List.drop_drop, List.drop_left' (u32le_length body.length)] at h
  exact h

/-- C2 (entry round-trip): decoding an encoded entry returns the exact
title and body bytes, with any trailing bytes ignored. -/
theorem decodeEntry_encodeEntry_append (title body rest : List Nat)
    (ht : title.length < 2 ^ 32) (hb : body.length < 2 ^ 32) :
    decodeEntry (encodeEntry title body ++ rest) = some (title, body) := by
  have hlen : (encodeEntry title body ++ rest).length =
      8 + title.length + body.length + rest.length := by
    simp [encodeEntry]; omega
  have htl : readU32 (encodeEntry title body ++ rest) = title.length := by
    rw [encodeEntry_regroup]
    exact readU32_u32le_append _ ht _
  have hbl : readU32 ((encodeEntry title body ++ rest).drop 4) = body.length := by
    rw [encodeEntry_drop4]
    exact readU32_u32le_append _ hb _
  have hdT : (encodeEntry title body ++ rest).drop (8 + title.length) =
      body ++ rest := by
    have h := congrArg (List.drop title.length) (encodeEntry_drop8 title body rest)
    rw [List.drop_drop, List.drop_left] at h
    exact h
  unfold decodeEntry
  rw [htl, hbl, hdT, encodeEntry_drop8, hlen]
  rw [if_neg (by omega), if_neg (by omega)]
  rw [List.take_left, List.take_left]

theorem foldl_add_data (es : List (List Nat × List Nat)) (b : Block) :
    (es.foldl (fun b e => b.add e.1 e.2) b).data
      = b.data ++ (es.map encE).flatten := by
  induction es generalizing b with
  | nil => simp
  | cons e es ih =>
    simp only [List.foldl_cons, ih, List.map_cons, List.flatten_cons]
    simp [Block.add, encE]

theorem foldl_add_starts (es : List (List Nat × List Nat)) (b : Block) :
    (es.foldl (fun b e => b.add e.1 e.2) b).starts
      = b.starts ++ offsets b.data.length es := by
  induction es generalizing b with
  | nil => simp [offsets]
  | cons e es ih =>
    simp only [List.foldl_cons, ih, offsets]
    simp [Block.add, encE]

theorem foldl_add_n (es : List (List Nat × List Nat)) (b : Block) :
    (es.foldl (fun b e => b.add e.1 e.2) b).n = b.n + es.length := by
  induction es generalizing b with
  | nil => simp
  | cons e es ih =>
    simp only [List.foldl_cons, ih, List.length_cons]
    simp [Block.add]
    omega

theorem buildBlock_data (es : List (List Nat × List Nat)) :
    (buildBlock es).data = (es.map encE).flatten := by
  simpa using foldl_add_data es {}

theorem buildBlock_starts (es : List (List Nat × List Nat)) :
    (buildBlock es).starts = offsets 0 es := by
  simpa using foldl_add_starts es {}

theorem buildBlock_n (es : List (List Nat × List Nat)) :
    (buildBlock es).n = es.length := by
  simpa using foldl_add_n es {}

theorem readU64s_flatten (l : List Nat) (rest : List Nat)
    (h : ∀ s ∈ l, s < 2 ^ 64) :
    readU64s l.length ((l.map u64le).flatten ++ rest) = some l := by
  induction l generalizing rest with
  | nil => rfl
  | cons s l ih =>
    have hre : ((s :: l).map u64le).flatten ++ rest
        = u64le s ++ ((l.map u64le).flatten ++ rest) := by simp
    have hd8 : (((s :: l).map u64le).flatten ++ rest).drop 8
        = (l.map u64le).flatten ++ rest := by
      rw [hre, List.drop_left' (u64le_length s)]
    have hv : readU64 (((s :: l).map u64le).flatten ++ rest) = s := by
      rw [hre]; exact readU64_u64le_append s (h s (by simp)) _
    have hlen : 8 ≤ (((s :: l).map u64le).flatten ++ rest).length := by
      rw [hre]; simp
    have hih := ih rest (fun x hx => h x (by simp [hx]))
    simp only [List.length_cons, readU64s]
    rw [if_neg (Nat.not_lt.2 hlen), hd8, hih, hv]

theorem drop_flatten_u64 (l : List Nat) (rest : List Nat) :
    (((l.map u64le).flatten ++ rest)).drop (8 * l.length) = rest := by
  induction l generalizing rest with
  | nil => simp
  | cons s l ih =>
    have hre : ((s :: l).map u64le).flatten ++ rest
        = u64le s ++ ((l.map u64le).flatten ++ rest) := by simp
    have h8 : 8 * (s :: l).length = 8 + 8 * l.length := by simp; omega
    rw [h8, ← List.drop_drop, hre, List.drop_left' (u64le_length s), ih]

/-- Serializing a block with `finish` and parsing the bytes back
recovers `n`, `starts` and `data` exactly (`id` is not encoded). -/
theorem parseBlock_finish (b : Block) (hn : b.n < 2 ^ 32)
    (hcount : b.n = b.starts.length) (hst : ∀ s ∈ b.starts, s < 2 ^ 64) :
    parseBlock b.finish
      = some { id := 0, n := b.n, starts := b.starts, data := b.data } := by
  have hlen8 : (u32le b.n ++ [0, 0, 0, 0]).length = 8 := by simp
  have hre : b.finish
      = (u32le b.n ++ [0, 0, 0, 0]) ++ ((b.starts.map u64le).flatten ++ b.data) := by
    simp [Block.finish]
  have hre' : b.finish
      = u32le b.n ++ ([0, 0, 0, 0] ++ ((b.starts.map u64le).flatten ++ b.data)) := by
    simp [Block.finish]
  have hrd : readU32 b.finish = b.n := by
    rw [hre']; exact readU32_u32le_append _ hn _
  have hdrop8 : b.finish.drop 8 = (b.starts.map u64le).flatten ++ b.data := by
    rw [hre, List.drop_left' hlen8]
  have hbig : 8 ≤ b.finish.length := by rw [hre]; simp; omega
  unfold parseBlock
  rw [if_neg (by omega), hrd, hdrop8, hcount, readU64s_flatten _ _ hst,
    drop_flatten_u64]

theorem offsets_get? (es : List (List Nat × List Nat)) (off i : Nat)
    (hi : i < es.length) :
    (offsets off es).get? i = some (off + startOf es i) := by
  induction es generalizing off i with
  | nil => simp at hi
  | cons e es ih =>
    cases i with
    | zero => simp [offsets, startOf]
    | succ j =>
      have hj : j < es.length := by simpa using hi
      simp only [offsets, List.get?_cons_succ, ih _ j hj, startOf, List.take_succ_cons,
        List.map_cons, List.flatten_cons, List.length_append]
      rw [Nat.add_assoc]

theorem offsets_length (es : List (List Nat × List Nat)) (off : Nat) :
    (offsets off es).length = es.length := by
  induction es generalizing off with
  | nil => rfl
  | cons e es ih => simp [offsets, ih]

theorem startOf_succ (es : List (List Nat × List Nat)) (i : Nat)
    (hi : i < es.length) :
    startOf es (i + 1) = startOf es i + (encE (es.get ⟨i, hi⟩)).length := by
  rw [startOf, startOf]
  simp only [List.length_flatten, List.map_map, List.map_take]
  rw [List.sum_take_succ _ i (by simpa using hi)]
  simp [List.get_eq_getElem]

theorem startOf_full (es : List (List Nat × List Nat)) :
    startOf es es.length = ((es.map encE).flatten).length := by
  simp [startOf]

theorem flatten_decomp (es : List (List Nat × List Nat)) (i : Nat)
    (hi : i < es.length) :
    (es.map encE).flatten
      = ((es.take i).map encE).flatten
          ++ (encE (es.get ⟨i, hi⟩) ++ ((es.drop (i + 1)).map encE).flatten) := by
  have h1 : es = es.take i ++ es.get ⟨i, hi⟩ :: es.drop (i + 1) := by
    conv_lhs => rw [← List.take_append_drop i es]
    rw [List.drop_eq_getElem_cons hi]
    simp [List.get_eq_getElem]
  conv_lhs => rw [h1]
  rw [List.map_append, List.flatten_append, List.map_cons, List.flatten_cons]

/-- Looking up an entry whose encoding sits at offset `pre.length` in the
data arena returns its exact title and body. -/
theorem entry_at (b : Block) (i : Nat) (pre post title body : List Nat)
    (hst : b.starts.get? i = some pre.length)
    (hdata : b.data = pre ++ (encodeEntry title body ++ post))
    (ht : title.length < 2 ^ 32) (hb : body.length < 2 ^ 32) :
    b.entry i = .ok (title, body) := by
  have hdrop : b.data.drop pre.length = encodeEntry title body ++ post := by
    rw [hdata, List.drop_left]
  have hdrop4 : b.data.drop (pre.length + 4)
      = u32le body.length ++ (title ++ (body ++ post)) := by
    have h := congrArg (List.drop 4) hdrop
    rw [List.drop_drop] at h
    rw [h, encodeEntry_drop4]
  have htl : readU32 (b.data.drop pre.length) = title.length := by
    rw [hdrop, encodeEntry_regroup]
    exact readU32_u32le_append _ ht _
  have hbl : readU32 (b.data.drop (pre.length + 4)) = body.length := by
    rw [hdrop4]
    exact readU32_u32le_append _ hb _
  have hlen : b.data.length
      = pre.length + (8 + title.length + body.length) + post.length := by
    rw [hdata]; simp [encodeEntry]; omega
  have hslice : (b.data.drop pre.length).take (8 + title.length + body.length)
      = encodeEntry title body := by
    rw [hdrop]
    exact List.take_left' (by rw [encodeEntry_length]; rfl)
  unfold Block.entry
  rw [hst]
  simp only [htl, hbl]
  rw [if_neg (by omega), if_neg (by omega), hslice]
  by_cases hb0 : body.length = 0
  · have hbody : body = [] := List.length_eq_zero.mp hb0
    rw [if_pos hb0]
    have h8 : (encodeEntry title body).drop 8 = title := by
      have := encodeEntry_drop8 title body []
      simpa [hbody] using this
    rw [h8, hbody]
  · rw [if_neg hb0]
    have hdec : decodeEntry (encodeEntry title body) = some (title, body) := by
      have := decodeEntry_encodeEntry_append title body [] ht hb
      simpa using this
    rw [hdec]

theorem offsets_le (es : List (List Nat × List Nat)) (off : Nat) :
    ∀ s ∈ offsets off es, s ≤ off + ((es.map encE).flatten).length := by
  induction es generalizing off with
  | nil => simp [offsets]
  | cons e es ih =>
    intro s hs
    rcases List.mem_cons.mp hs with h | h
    · omega
    · have := ih (off + (encE e).length) s h
      simp only [List.map_cons, List.flatten_cons, List.length_append]
      omega

/-- C1 (block round-trip): building a block by successive `add`,
serializing with `finish`, parsing the bytes back and looking up each
index returns exactly the appended entries. -/
theorem block_roundtrip (es : List (List Nat × List Nat)) (hne : es ≠ [])
    (hfit : ∀ e ∈ es, e.1.length < 2 ^ 32 ∧ e.2.length < 2 ^ 32)
    (hn : es.length < 2 ^ 32)
    (hdat : ((es.map encE).flatten).length < 2 ^ 64) :
    ∃ B, parseBlock ((buildBlock es).finish) = some B ∧
      ∀ i (hi : i < es.length), B.entry i = .ok (es.get ⟨i, hi⟩) := by
  have hn' : (buildBlock es).n < 2 ^ 32 := by rw [buildBlock_n]; exact hn
  have hcount : (buildBlock es).n = (buildBlock es).starts.length := by
    rw [buildBlock_n, buildBlock_starts, offsets_length]
  have hbound : ∀ s ∈ (buildBlock es).starts, s < 2 ^ 64 := by
    intro s hs
    rw [buildBlock_starts] at hs
    have := offsets_le es 0 s hs
    omega
  refine ⟨_, parseBlock_finish (buildBlock es) hn' hcount hbound, ?_⟩
  intro i hi
  have hget : (buildBlock es).starts.get? i
      = some (((es.take i).map encE).flatten).length := by
    rw [buildBlock_starts, offsets_get? es 0 i hi]
    simp [startOf]
  have hdata : (buildBlock es).data
      = ((es.take i).map encE).flatten
          ++ (encodeEntry (es.get ⟨i, hi⟩).1 (es.get ⟨i, hi⟩).2
              ++ ((es.drop (i + 1)).map encE).flatten) := by
    rw [buildBlock_data, flatten_decomp es i hi]
    rfl
  have hmem : es.get ⟨i, hi⟩ ∈ es := List.get_mem es i hi
  have h1 := (hfit _ hmem).1
  have h2 := (hfit _ hmem).2
  have := entry_at
      (Block.mk 0 (buildBlock es).n (buildBlock es).starts (buildBlock es).data) i
      (((es.take i).map encE).flatten)
      (((es.drop (i + 1)).map encE).flatten)
      (es.get ⟨i, hi⟩).1 (es.get ⟨i, hi⟩).2 hget hdata h1 h2
  simpa using this

/-- C5 (offset monotonicity): after any number of appends starting from
the empty block, the first start is 0, `starts` is strictly increasing,
and each start plus the entry's encoded length gives the next start (or
the data length for the last entry). -/
theorem append_offset_invariants (es : List (List Nat × List Nat)) (hne : es ≠ []) :
    (buildBlock es).starts.get? 0 = some 0 ∧
    List.Chain' (· < ·) (buildBlock es).starts ∧
    (∀ i s e, (buildBlock es).starts.get? i = some s → es.get? i = some e →
      (if i + 1 < es.length
       then (buildBlock es).starts.get? (i + 1) = some (s + (encE e).length)
       else s + (encE e).length = (buildBlock es).data.length)) := by
  have hlen0 : 0 < es.length := List.length_pos.mpr hne
  refine ⟨?_, ?_, ?_⟩
  · rw [buildBlock_starts, offsets_get? es 0 0 hlen0]
    simp [startOf]
  · rw [buildBlock_starts]
    have : ∀ (l : List (List Nat × List Nat)) (off : Nat),
        List.Chain' (· < ·) (offsets off l) := by
      intro l
      induction l with
      | nil => intro off; simp [offsets]
      | cons e l ih =>
        intro off
        rw [offsets, List.chain'_cons']
        refine ⟨?_, ih _⟩
        intro y hy
        cases l with
        | nil => simp [offsets] at hy
        | cons e' l' =>
          simp only [offsets, List.head?_cons, Option.mem_def, Option.some.injEq] at hy
          have : (encE e).length = 8 + e.1.length + e.2.length := by
            rw [encE, encodeEntry_length]; rfl
          omega
    exact this es 0
  · intro i s e hs he
    have hi : i < es.length := by
      by_contra hcon
      rw [List.get?_eq_none.mpr (Nat.le_of_not_lt hcon)] at he
      exact Option.noConfusion he
    have hsv : s = startOf es i := by
      rw [buildBlock_starts, offsets_get? es 0 i hi] at hs
      have := Option.some.inj hs
      omega
    have hev : e = es.get ⟨i, hi⟩ := by
      rw [List.get?_eq_get hi] at he
      exact (Option.some.inj he).symm
    by_cases hsucc : i + 1 < es.length
    · rw [if_pos hsucc, buildBlock_starts, offsets_get? es 0 (i + 1) hsucc]
      rw [hsv, hev, startOf_succ es i hi]
      simp
    · rw [if_neg hsucc]
      have hlast : i + 1 = es.length := by omega
      rw [buildBlock_data, hsv, hev]
      have h := startOf_succ es i hi
      rw [hlast, startOf_full] at h
      omega

theorem zip_cons_self_diff (L : List Nat) (x : Nat) :
    ((x :: L).zip L).map (fun p => p.2 - p.1) = diffList x L := by
  induction L generalizing x with
  | nil => rfl
  | cons a L ih => simp only [List.zip_cons_cons, List.map_cons, diffList, ih]

theorem diffList_offsets (es : List (List Nat × List Nat)) (hne : es ≠ []) :
    ∀ off prev : Nat,
      diffList prev (offsets off es)
        = (off - prev) :: es.dropLast.map (fun e => (encE e).length) := by
  induction es with
  | nil => exact absurd rfl hne
  | cons e es ih =>
    intro off prev
    cases es with
    | nil => simp [offsets, diffList]
    | cons e' es' =>
      rw [offsets, diffList, ih (by simp)]
      simp

theorem sampleSizes_buildBlock (es : List (List Nat × List Nat)) (hne : es ≠ []) :
    sampleSizes (buildBlock es)
      = 0 :: es.dropLast.map (fun e => (encE e).length) := by
  rw [sampleSizes, buildBlock_starts, zip_cons_self_diff, diffList_offsets es hne]

/-- C3 counterexample: on a concrete two-entry first block the code's
sample sizes are `[0, 10]` (first sample empty, last entry's bytes not
sampled) while the claimed sequence is `[10, 11]`. -/
theorem sample_sizes_counterexample :
    sampleSizes (buildBlock [([97], [49]), ([98], [50, 50])]) = [0, 10] ∧
    specSampleSizes (buildBlock [([97], [49]), ([98], [50, 50])]) = [10, 11] ∧
    sampleSizes (buildBlock [([97], [49]), ([98], [50, 50])])
      ≠ specSampleSizes (buildBlock [([97], [49]), ([98], [50, 50])]) := by
  decide

/-- C3 (amended): the first commit trains with sample sizes
`0, starts[1]-starts[0], …, starts[n-1]-starts[n-2]` — that is, a zero
followed by the encoded lengths of all entries but the last — over the
continuous data buffer, targeting a 150,000-byte dictionary. -/
theorem first_commit_training
    (train : List Nat → List Nat → Nat → List Nat)
    (compress : List Nat → List Nat → List Nat)
    (es : List (List Nat × List Nat)) (hne : es ≠ []) (n0 : Nat) :
    (commit train compress freshStore (buildBlock es) n0).dictFile
      = some (train (buildBlock es).data
          (0 :: es.dropLast.map (fun e => (encE e).length)) 150000) := by
  rw [show (150000 : Nat) = dictTargetSize from rfl,
    ← sampleSizes_buildBlock es hne]
  rfl

theorem first_commit_training_witness :
    ([([97], [49])] : List (List Nat × List Nat)) ≠ [] ∧
    (commit (fun d _ _ => d) (fun _ b => b) freshStore
        (buildBlock [([97], [49])]) 0).dictFile
      = some ((fun (d : List Nat) (_ : List Nat) (_ : Nat) => d)
          (buildBlock [([97], [49])]).data
          (0 :: ([([97], [49])] : List (List Nat × List Nat)).dropLast.map
            (fun e => (encE e).length)) 150000) :=
  ⟨by decide, first_commit_training (fun d _ _ => d) (fun _ b => b)
    [([97], [49])] (by decide) 0⟩

theorem commit_preserves_dict (train : List Nat → List Nat → Nat → List Nat)
    (compress : List Nat → List Nat → List Nat)
    (s : StoreState) (b : Block) (n : Nat) (d : List Nat)
    (h : s.dictEn = some d) :
    (commit train compress s b n).dictEn = some d ∧
    (commit train compress s b n).dictFile = s.dictFile := by
  rw [commit, h]
  exact ⟨rfl, rfl⟩

theorem foldl_commit_preserves_dict
    (train : List Nat → List Nat → Nat → List Nat)
    (compress : List Nat → List Nat → List Nat)
    (l : List (Block × Nat)) :
    ∀ (s : StoreState) (d : List Nat), s.dictEn = some d →
      (l.foldl (fun s p => commit train compress s p.1 p.2) s).dictEn = some d ∧
      (l.foldl (fun s p => commit train compress s p.1 p.2) s).dictFile
        = s.dictFile := by
  induction l with
  | nil => intro s d h; exact ⟨h, rfl⟩
  | cons p l ih =>
    intro s d h
    have hc := commit_preserves_dict train compress s p.1 p.2 d h
    have := ih (commit train compress s p.1 p.2) d hc.1
    exact ⟨this.1, this.2.trans hc.2⟩

/-- C4 (dictionary trained once): on a fresh store the first commit
trains the dictionary and writes `zst.dictionary`; every later commit
reuses the in-memory dictionary and leaves the file's bytes exactly as
they were after the first commit. -/
theorem dictionary_trained_once
    (train : List Nat → List Nat → Nat → List Nat)
    (compress : List Nat → List Nat → List Nat)
    (b0 : Block) (n0 : Nat) (rest : List (Block × Nat)) :
    (commit train compress freshStore b0 n0).dictFile
      = some (train b0.data (sampleSizes b0) dictTargetSize) ∧
    (rest.foldl (fun s p => commit train compress s p.1 p.2)
        (commit train compress freshStore b0 n0)).dictFile
      = (commit train compress freshStore b0 n0).dictFile ∧
    (rest.foldl (fun s p => commit train compress s p.1 p.2)
        (commit train compress freshStore b0 n0)).dictEn
      = (commit train compress freshStore b0 n0).dictEn := by
  have h1 : (commit train compress freshStore b0 n0).dictEn
      = some (train b0.data (sampleSizes b0) dictTargetSize) := rfl
  have h := foldl_commit_preserves_dict train compress rest
    (commit train compress freshStore b0 n0) _ h1
  exact ⟨rfl, h.2, h.1.trans h1.symm⟩

theorem setLast_append (l₁ l₂ : List Nat) (c : Nat) (h : l₂ ≠ []) :
    setLast (l₁ ++ l₂) c = l₁ ++ setLast l₂ c := by
  rw [setLast, setLast, List.dropLast_append_of_ne_nil l₁ h, List.append_assoc]

theorem setLast_length (l : List Nat) (c : Nat) (h : l ≠ []) :
    (setLast l c).length = l.length := by
  have : 0 < l.length := List.length_pos.mpr h
  simp [setLast]
  omega

theorem setLast_encodeEntry (t b : List Nat) (c : Nat) (h : b ≠ []) :
    setLast (encodeEntry t b) c = encodeEntry t (setLast b c) := by
  have h1 : encodeEntry t b
      = (u32le t.length ++ u32le b.length ++ t) ++ b := by
    simp [encodeEntry]
  rw [h1, setLast_append _ _ _ h, encodeEntry, setLast_length b c h]

/-- C8 counterexample: commit a one-entry block, alter the last byte of
its data region (`49 → 48`), and look up the last entry: the lookup
SUCCEEDS with the altered body instead of failing with a corrupt-block
error. -/
theorem corrupt_last_byte_counterexample :
    parseBlock ((buildBlock [([97], [49])]).finish)
      = some (Block.mk 0 1 [0] [1, 0, 0, 0, 1, 0, 0, 0, 97, 49]) ∧
    (Block.mk 0 1 [0] (setLast [1, 0, 0, 0, 1, 0, 0, 0, 97, 49] 48)).entry 0
      = .ok ([97], [48]) ∧
    (Block.mk 0 1 [0] (setLast [1, 0, 0, 0, 1, 0, 0, 0, 97, 49] 48)).entry 0
      ≠ .error .corruptBlock := by
  refine ⟨by decide, by decide, by decide⟩

/-- C8 (amended): altering the last byte of the data region of a block
whose last entry has a nonempty body is NOT detected: looking up the
last index succeeds, returning the same title and the body with its
final byte replaced, never a corrupt-block error. -/
theorem corrupt_last_byte_lookup (es' : List (List Nat × List Nat))
    (t b : List Nat) (c : Nat) (hb : b ≠ [])
    (ht32 : t.length < 2 ^ 32) (hb32 : b.length < 2 ^ 32) :
    (Block.mk 0 (buildBlock (es' ++ [(t, b)])).n
        (buildBlock (es' ++ [(t, b)])).starts
        (setLast (buildBlock (es' ++ [(t, b)])).data c)).entry es'.length
      = .ok (t, setLast b c) := by
  have hne : encodeEntry t b ≠ [] := by
    intro hcon
    have := congrArg List.length hcon
    rw [encodeEntry_length] at this
    simp [encodedLen] at this
  have hdata : setLast (buildBlock (es' ++ [(t, b)])).data c
      = (es'.map encE).flatten ++ (encodeEntry t (setLast b c) ++ []) := by
    rw [buildBlock_data]
    simp only [List.map_append, List.flatten_append, List.map_cons, List.map_nil,
      List.flatten_cons, List.flatten_nil, List.append_nil]
    rw [show encE (t, b) = encodeEntry t b from rfl,
      setLast_append _ _ _ hne, setLast_encodeEntry t b c hb]
  have hst : (buildBlock (es' ++ [(t, b)])).starts.get? es'.length
      = some ((es'.map encE).flatten).length := by
    have hi : es'.length < (es' ++ [(t, b)]).length := by simp
    rw [buildBlock_starts, offsets_get? _ 0 es'.length hi]
    rw [startOf, List.take_left]
    simp
  have hb32' : (setLast b c).length < 2 ^ 32 := by
    rw [setLast_length b c hb]; exact hb32
  exact entry_at _ es'.length ((es'.map encE).flatten) [] t (setLast b c)
    hst hdata ht32 hb32'

theorem corrupt_last_byte_lookup_witness :
    ([49] : List Nat) ≠ [] ∧ ([97] : List Nat).length < 2 ^ 32 ∧
    ([49] : List Nat).length < 2 ^ 32 ∧
    (Block.mk 0 (buildBlock ([] ++ [([97], [49])])).n
        (buildBlock ([] ++ [([97], [49])])).starts
        (setLast (buildBlock ([] ++ [([97], [49])])).data 48)).entry
        ([] : List (List Nat × List Nat)).length
      = .ok ([97], setLast [49] 48) :=
  ⟨by decide, by decide, by decide,
    corrupt_last_byte_lookup [] [97] [49] 48 (by decide) (by decide) (by decide)⟩

theorem leVal_append (xs ys : List Nat) :
    leVal (xs ++ ys) = leVal xs + 256 ^ xs.length * leVal ys := by
  induction xs with
  | nil => simp [leVal]
  | cons x xs ih =>
    simp only [List.cons_append, leVal, List.length_cons, pow_succ]
    rw [show xs.append ys = xs ++ ys from rfl, ih]
    ring

theorem leVal_u32le_mod (n : Nat) : leVal (u32le n) = n % 2 ^ 32 := by
  simp only [u32le, leVal]
  omega

theorem u64le_take4 (n : Nat) : (u64le n).take 4 = u32le n := rfl

theorem u64le_drop4 (n : Nat) : (u64le n).drop 4 = u32le (n / 2 ^ 32) := by
  simp only [u64le, u32le, List.drop_succ_cons, List.drop_zero, List.cons.injEq,
    and_true]
  omega

theorem refFromU64_eq (n : Nat) :
    refFromU64 n = ⟨n % 2 ^ 32, n / 2 ^ 32 % 2 ^ 32⟩ := by
  rw [refFromU64, readU32, readU32, u64le_take4, u64le_drop4]
  have h4 : (u32le (n / 2 ^ 32)).take 4 = u32le (n / 2 ^ 32) := rfl
  rw [h4, leVal_u32le_mod, leVal_u32le_mod]

theorem refAsU64_eq (b e : Nat) (hb : b < 2 ^ 32) (he : e < 2 ^ 32) :
    refAsU64 ⟨b, e⟩ = b + 2 ^ 32 * e := by
  rw [refAsU64, refToBytes, leVal_append, leVal_u32le _ hb, leVal_u32le_mod,
    Nat.mod_eq_of_lt he, u32le_length]
  norm_num

theorem charVal_digitChar (d : Nat) (h : d < 10) :
    charVal (Nat.digitChar d) = some d := by
  interval_cases d <;> decide

theorem digitChar_ne_slash (d : Nat) (h : d < 10) : Nat.digitChar d ≠ '/' := by
  interval_cases d <;> decide

theorem digitChar_ne_plus (d : Nat) (h : d < 10) : Nat.digitChar d ≠ '+' := by
  interval_cases d <;> decide

theorem slash_not_mem_decChars (n : Nat) : '/' ∉ decChars n := by
  rw [decChars]
  split
  · decide
  · intro hmem
    rw [List.mem_reverse, List.mem_map] at hmem
    obtain ⟨d, hd, hEq⟩ := hmem
    exact digitChar_ne_slash d (Nat.digits_lt_base (by norm_num) hd) hEq

theorem plus_not_mem_decChars (n : Nat) : '+' ∉ decChars n := by
  rw [decChars]
  split
  · decide
  · intro hmem
    rw [List.mem_reverse, List.mem_map] at hmem
    obtain ⟨d, hd, hEq⟩ := hmem
    exact digitChar_ne_plus d (Nat.digits_lt_base (by norm_num) hd) hEq

theorem decChars_ne_nil (n : Nat) : decChars n ≠ [] := by
  rw [decChars]
  split
  · simp
  · intro hcon
    rw [List.reverse_eq_nil_iff, List.map_eq_nil_iff] at hcon
    simp_all [Nat.digits_eq_nil_iff_eq_zero]

theorem stripPlus_decChars (n : Nat) : stripPlus (decChars n) = decChars n := by
  cases h : decChars n with
  | nil => rfl
  | cons c rest =>
    have hmem : c ∈ decChars n := by rw [h]; exact List.mem_cons_self c rest
    have hc : c ≠ '+' := fun hcon => plus_not_mem_decChars n (hcon ▸ hmem)
    simp [stripPlus, hc]

theorem digitsValAux_append (xs ys : List Char) (acc : Nat) :
    digitsValAux acc (xs ++ ys)
      = match digitsValAux acc xs with
        | none => none
        | some v => digitsValAux v ys := by
  induction xs generalizing acc with
  | nil => rfl
  | cons c xs ih =>
    simp only [List.cons_append, digitsValAux]
    cases charVal c with
    | none => rfl
    | some d => exact ih _

theorem digitsValAux_revDigits (ds : List Nat) (h : ∀ d ∈ ds, d < 10) (acc : Nat) :
    digitsValAux acc ((ds.map Nat.digitChar).reverse)
      = some (acc * 10 ^ ds.length + Nat.ofDigits 10 ds) := by
  induction ds generalizing acc with
  | nil => simp [digitsValAux, Nat.ofDigits_nil]
  | cons d ds ih =>
    rw [List.map_cons, List.reverse_cons, digitsValAux_append,
      ih (fun x hx => h x (List.mem_cons_of_mem _ hx))]
    show digitsValAux (acc * 10 ^ ds.length + Nat.ofDigits 10 ds)
        [Nat.digitChar d] = _
    simp only [digitsValAux, charVal_digitChar d (h d (List.mem_cons_self _ _))]
    rw [Nat.ofDigits_cons]
    simp only [List.length_cons, pow_succ]
    ring_nf

theorem digitsValAux_decChars (n : Nat) :
    digitsValAux 0 (decChars n) = some n := by
  rw [decChars]
  split
  · simp_all [digitsValAux, charVal]
  · rw [digitsValAux_revDigits _ (fun d hd => Nat.digits_lt_base (by norm_num) hd) 0]
    simp [Nat.ofDigits_digits]

theorem parseU32_decChars (n : Nat) (h : n < 2 ^ 32) :
    parseU32 (decChars n) = some n := by
  rw [parseU32, stripPlus_decChars, digitsValAux_decChars]
  rw [if_neg (by simpa using decChars_ne_nil n)]
  show (if n < 2 ^ 32 then some n else none) = some n
  rw [if_pos h]

theorem splitOnceSlash_append (A B : List Char) (h : '/' ∉ A) :
    splitOnceSlash (A ++ '/' :: B) = some (A, B) := by
  induction A with
  | nil => simp [splitOnceSlash]
  | cons c A ih =>
    have hc : c ≠ '/' := fun hcon => h (by simp [hcon])
    have hA : '/' ∉ A := fun hcon => h (by simp [hcon])
    have hih : splitOnceSlash (A.append ('/' :: B)) = some (A, B) := ih hA
    simp only [List.cons_append, splitOnceSlash, if_neg hc, ih hA, hih]

theorem refParse_refFormat (b e : Nat) (hb : b < 2 ^ 32) (he : e < 2 ^ 32) :
    refParse (refFormat ⟨b, e⟩) = some ⟨b, e⟩ := by
  simp only [refParse, refFormat,
    splitOnceSlash_append (decChars b) (decChars e) (slash_not_mem_decChars b),
    parseU32_decChars b hb, parseU32_decChars e he]

/-- C6 (Ref bijection): for 32-bit `b` and `e`, the 64-bit form (block
id in the low 32 bits, entry id in the high 32 bits) round-trips, and
parsing the formatted `"<b>/<e>"` text recovers the Ref. -/
theorem ref_bijection (b e : Nat) (hb : b < 2 ^ 32) (he : e < 2 ^ 32) :
    refAsU64 ⟨b, e⟩ = b + 2 ^ 32 * e ∧
    refFromU64 (refAsU64 ⟨b, e⟩) = ⟨b, e⟩ ∧
    refParse (refFormat ⟨b, e⟩) = some ⟨b, e⟩ := by
  refine ⟨refAsU64_eq b e hb he, ?_, refParse_refFormat b e hb he⟩
  rw [refAsU64_eq b e hb he, refFromU64_eq]
  have h1 : (b + 2 ^ 32 * e) % 2 ^ 32 = b := by omega
  have h2 : (b + 2 ^ 32 * e) / 2 ^ 32 % 2 ^ 32 = e := by omega
  rw [h1, h2]

theorem ref_bijection_witness :
    (42 : Nat) < 2 ^ 32 ∧ (7 : Nat) < 2 ^ 32 ∧
    (refAsU64 ⟨42, 7⟩ = 42 + 2 ^ 32 * 7 ∧
     refFromU64 (refAsU64 ⟨42, 7⟩) = ⟨42, 7⟩ ∧
     refParse (refFormat ⟨42, 7⟩) = some ⟨42, 7⟩) :=
  ⟨by norm_num, by norm_num, ref_bijection 42 7 (by norm_num) (by norm_num)⟩

/-- C9 (XML recognizer): the event sequence for
`<page><title>T</title><text>X Y</text></page>` drives the machine
through `Open`, `Title`, `Titled`, `Text` to `Texted {title := "T",
body := "X Y"}` (fragments joined by a single space); any event in
`Texted` returns to `None`; events not named in the transition table
leave the state unchanged. -/
theorem xml_recognizer (t b : String) :
    ([XmlEvent.startElement "page", .startElement "title", .characters "T",
      .endElement "title", .startElement "text", .characters "X Y",
      .endElement "text"].scanl pageParse .none
      = [.none, .Open, .title [], .title ["T"], .titled "T",
         .text "T" [], .text "T" ["X Y"], .texted "T" "X Y"]) ∧
    (∀ e, pageParse (.texted t b) e = .none) ∧
    (∀ p e, ¬ namedTransition p e → pageParse p e = p) := by
  refine ⟨by decide, fun e => by cases e <;> rfl, ?_⟩
  intro p e h
  cases p <;> cases e <;> simp_all [pageParse, namedTransition]

theorem xml_recognizer_witness :
    pageParse (Page.texted "a" "b") XmlEvent.other = Page.none ∧
    pageParse Page.Open (XmlEvent.characters "z") = Page.Open :=
  ⟨(xml_recognizer "a" "b").2.1 XmlEvent.other,
   (xml_recognizer "a" "b").2.2 Page.Open (XmlEvent.characters "z")
     (by simp [namedTransition])⟩

/-- C7 counterexample: on the S5 input the splitter returns keys
`english` and `french`, but the trimmed `french` body is `"=\nba"` —
the last-section end bound `len(text) - 1` together with the
`skip(start - 1)` shift drops the final `z` — so it does NOT contain
`"baz"` as the claim asserts. -/
theorem section_splitter_counterexample :
    splitBySection 2 s5input
      = some [("english".toList, "=\nfoo\n===Noun===\nbar".toList),
              ("french".toList, "=\nba".toList)] ∧
    isSubChars ("baz".toList) ("=\nba".toList) = false := by
  exact ⟨by decide, by decide⟩

/-- C7 (amended): the splitter on the S5 input yields exactly the keys
`english` and `french`; the `english` body contains
`"foo\n===Noun===\nbar"`, and the `french` body is `"=\nba"` (so it
contains `"ba"` but not the full `"baz"`). -/
theorem section_splitter_s5 :
    splitBySection 2 s5input
      = some [("english".toList, "=\nfoo\n===Noun===\nbar".toList),
              ("french".toList, "=\nba".toList)] ∧
    isSubChars ("foo\n===Noun===\nbar".toList)
      ("=\nfoo\n===Noun===\nbar".toList) = true ∧
    isSubChars ("ba".toList) ("=\nba".toList) = true := by
  refine ⟨by decide, by decide, by decide⟩

/-- C10 (splitter is partial): on `"==A=="` the only heading match ends
at `match_end = len(text) = 5`, the last-section bound is
`len(text) - 1 = 4`, and the length computation `4 - 5` underflows the
unsigned subtraction, so under checked arithmetic the splitter panics
(modelled as `none`) instead of returning a mapping. -/
theorem splitter_underflow_on_trailing_heading :
    findMatches 2 ("==A==".toList) (("==A==".toList).length + 1) 0
      = [("a".toList, 0, 5)] ∧
    checkedSub (("==A==".toList).length - 1) 5 = none ∧
    splitBySection 2 ("==A==".toList) = none := by
  refine ⟨by decide, by decide, by decide⟩

/-- C2 (entry round-trip, exact): `decode(encode(e)) == e` byte-exact
for any title/body whose lengths fit `u32`, including an empty body. -/
theorem entry_roundtrip (title body : List Nat)
    (ht : title.length < 2 ^ 32) (hb : body.length < 2 ^ 32) :
    decodeEntry (encodeEntry title body) = some (title, body) := by
  have := decodeEntry_encodeEntry_append title body [] ht hb
  simpa using this

theorem entry_roundtrip_witness :
    (([104, 105] : List Nat).length < 2 ^ 32) ∧
    (([] : List Nat).length < 2 ^ 32) ∧
    decodeEntry (encodeEntry [104, 105] []) = some ([104, 105], []) :=
  ⟨by decide, by decide,
    entry_roundtrip [104, 105] [] (by decide) (by decide)⟩

theorem block_roundtrip_witness :
    (([([97], [49]), ([98], [])] : List (List Nat × List Nat)) ≠ []) ∧
    (∀ e ∈ ([([97], [49]), ([98], [])] : List (List Nat × List Nat)),
      e.1.length < 2 ^ 32 ∧ e.2.length < 2 ^ 32) ∧
    (([([97], [49]), ([98], [])] : List (List Nat × List Nat)).length < 2 ^ 32) ∧
    ((((([([97], [49]), ([98], [])] : List (List Nat × List Nat))).map
        encE).flatten).length < 2 ^ 64) ∧
    (∃ B, parseBlock ((buildBlock [([97], [49]), ([98], [])]).finish) = some B ∧
      ∀ i (hi : i < ([([97], [49]), ([98], [])] :
          List (List Nat × List Nat)).length),
        B.entry i = .ok (([([97], [49]), ([98], [])] :
          List (List Nat × List Nat)).get ⟨i, hi⟩)) :=
  ⟨by decide, by decide, by decide, by decide,
    block_roundtrip [([97], [49]), ([98], [])] (by decide) (by decide)
      (by decide) (by decide)⟩

theorem append_offset_invariants_witness :
    (([([97], [49]), ([98], [50, 50])] : List (List Nat × List Nat)) ≠ []) ∧
    ((buildBlock [([97], [49]), ([98], [50, 50])]).starts.get? 0 = some 0 ∧
     List.Chain' (· < ·) (buildBlock [([97], [49]), ([98], [50, 50])]).starts ∧
     (∀ i s e,
        (buildBlock [([97], [49]), ([98], [50, 50])]).starts.get? i = some s →
        ([([97], [49]), ([98], [50, 50])] :
          List (List Nat × List Nat)).get? i = some e →
        (if i + 1 < ([([97], [49]), ([98], [50, 50])] :
            List (List Nat × List Nat)).length
         then (buildBlock [([97], [49]), ([98], [50, 50])]).starts.get? (i + 1)
            = some (s + (encE e).length)
         else s + (encE e).length
            = (buildBlock [([97], [49]), ([98], [50, 50])]).data.length))) :=
  ⟨by decide, append_offset_invariants [([97], [49]), ([98], [50, 50])] (by decide)⟩

end Wikt

